import Mathlib

/-!
# Verification of the fast red-black tree engine (`src/RBT-AVLT/src/rbTreeFast.rs`)

This file gives a shallow embedding in Lean 4 of the single-pass top-down
red-black tree of `rbTreeFast.rs` together with the parts of the shared
node/tree contract (`commonTrait.rs`) it uses, and settles the spec claims
about it.

Modelling conventions:
* The Rust children are `Option<Rc<RefCell<TreeNode<T>>>>`; since every node is
  exclusively owned, the structure is purely functional and is modelled by the
  inductive `Tree`, whose `nil` constructor plays the role of the Rust `None`
  child.
* Keys (`T : Ord + Copy`) are modelled by `Int`.
* Every Rust `.unwrap()` can panic; functions that execute unwraps are
  therefore modelled in the `Option` monad, where `none` means "the Rust code
  panics" and `some t` means "the Rust code returns normally with tree `t`".
  Unwraps that are syntactically guarded (e.g. `is_red(x) && f(x.unwrap())`
  where `Red` implies `Some`) are modelled by total projections, which is
  faithful because the guard guarantees the unwrap succeeds exactly there.
-/

namespace RBFast

/-- `NodeColor` of `rbTreeFast.rs`. -/
inductive NodeColor where
  | Red
  | Black
deriving DecidableEq, Repr

/-- A `TreeNode` pointer of `rbTreeFast.rs`: `nil` is the Rust `None`
(an absent child), `node color value left right` is `Some(TreeNode {..})`. -/
inductive Tree where
  | nil
  | node (color : NodeColor) (value : Int) (left : Tree) (right : Tree)
deriving DecidableEq, Repr

open NodeColor Tree

/-- `TreeNode::get_left` (an absent child is `nil`). -/
def get_left : Tree → Tree
  | nil => nil
  | node _ _ l _ => l

/-- `TreeNode::get_right`. -/
def get_right : Tree → Tree
  | nil => nil
  | node _ _ _ r => r

/-- `TreeNode::get_color`: `None` reads as `Black`. -/
def get_color : Tree → NodeColor
  | nil => Black
  | node c _ _ _ => c

/-- `TreeNode::is_red`. -/
def is_red (t : Tree) : Bool := get_color t == Red

/-- `TreeNode::is_black`. -/
def is_black (t : Tree) : Bool := get_color t == Black

/-- `TreeNode::left_rotate`: unwraps `node.right` (panic = `none`), promotes it,
the promoted node keeps the old root's color, the old root becomes `Red`. -/
def left_rotate : Tree → Option Tree
  | node c v l (node _ rv rl rr) => some (node c rv (node Red v l rl) rr)
  | _ => none

/-- `TreeNode::right_rotate`: mirror image of `left_rotate`. -/
def right_rotate : Tree → Option Tree
  | node c v (node _ lv ll lr) r => some (node c lv ll (node Red v lr r))
  | _ => none

/-- `TreeNode::flip_color`: unwraps both children (panic = `none`), paints them
`Black` and the node `Red`. -/
def flip_color : Tree → Option Tree
  | node _ v (node _ lv ll lr) (node _ rv rl rr) =>
      some (node Red v (node Black lv ll lr) (node Black rv rl rr))
  | _ => none

/-- `TreeNode::maintain`: the single fixup pass (left-rotate on a red right
child with black left child, right-rotate on a red left child with red
left-left grandchild, color flip when both children are red). -/
def maintain (t : Tree) : Option Tree :=
  if is_red (get_right t) && is_black (get_left t) then
    match left_rotate t with
    | none => none
    | some t1 =>
      if is_red (get_left t1) && is_red (get_left (get_left t1)) then
        match right_rotate t1 with
        | none => none
        | some t2 =>
          if is_red (get_left t2) && is_red (get_right t2) then flip_color t2
          else some t2
      else some t1
  else if is_red (get_left t) && is_red (get_left (get_left t)) then
    match right_rotate t with
    | none => none
    | some t1 =>
      if is_red (get_left t1) && is_red (get_right t1) then flip_color t1
      else some t1
  else if is_red (get_left t) && is_red (get_right t) then flip_color t
  else some t

/-- `TreeNode::node_insert`: recursive BST descent, overwriting the value on an
equal key, followed by `maintain`. -/
def node_insert : Tree → Int → Option Tree
  | nil, v => some (node Red v nil nil)
  | node c nv l r, v =>
    if v < nv then
      match node_insert l v with
      | none => none
      | some l2 => maintain (node c nv l2 r)
    else if v > nv then
      match node_insert r v with
      | none => none
      | some r2 => maintain (node c nv l r2)
    else
      maintain (node c v l r)

/-- `FastRBTree::insert`: calls `node_insert` on the root and then unwraps the
new root (panic = `none` if it were absent) to force its color to `Black`. -/
def insert (t : Tree) (v : Int) : Option Tree :=
  match node_insert t v with
  | none => none
  | some nil => none
  | some (node _ rv rl rr) => some (node Black rv rl rr)

/-- Number of real nodes of a tree (used as the termination measure of
`node_delete`). -/
def size : Tree → Nat
  | nil => 0
  | node _ _ l r => size l + size r + 1

/-- `n.borrow_mut().left = x` on a node handle `n`. -/
def with_left : Tree → Tree → Tree
  | nil, _ => nil
  | node c v _ r, l2 => node c v l2 r

/-- `n.borrow_mut().right = x` on a node handle `n`. -/
def with_right : Tree → Tree → Tree
  | nil, _ => nil
  | node c v l _, r2 => node c v l r2

/-- `n.borrow_mut().value = mv; n.borrow_mut().right = x` on a node handle. -/
def with_value_right : Tree → Int → Tree → Tree
  | nil, _, _ => nil
  | node c _ l _, mv, r2 => node c mv l r2

/-- `CommonTreeNodeTrait::get_min_value_in_children`: leftmost value.  The
Rust method is only invoked on real nodes; the `nil` case is an arbitrary
default that no caller reaches. -/
def get_min_value_in_children : Tree → Int
  | nil => 0
  | node _ v l _ =>
    match l with
    | nil => v
    | node lc lv ll lr => get_min_value_in_children (node lc lv ll lr)

/-- `TreeNode::move_red_left`: color flip, then if the right child's left
child is red: right-rotate the right child, left-rotate, flip again. -/
def move_red_left (t : Tree) : Option Tree :=
  match flip_color t with
  | none => none
  | some t1 =>
    if is_red (get_left (get_right t1)) then
      match right_rotate (get_right t1) with
      | none => none
      | some r2 =>
        match left_rotate (with_right t1 r2) with
        | none => none
        | some t3 => flip_color t3
    else some t1

/-- `TreeNode::move_red_right`: color flip, then if the left child's left
child is red: right-rotate and flip again. -/
def move_red_right (t : Tree) : Option Tree :=
  match flip_color t with
  | none => none
  | some t1 =>
    if is_red (get_left (get_left t1)) then
      match right_rotate t1 with
      | none => none
      | some t2 => flip_color t2
    else some t1

theorem size_left_rotate {t t' : Tree} (h : left_rotate t = some t') :
    size t' = size t := by
  cases t with
  | nil => simp [left_rotate] at h
  | node c v l r =>
    cases r with
    | nil => simp [left_rotate] at h
    | node rc rv rl rr =>
      simp only [left_rotate, Option.some.injEq] at h
      subst h; simp [size]; omega

theorem size_right_rotate {t t' : Tree} (h : right_rotate t = some t') :
    size t' = size t := by
  cases t with
  | nil => simp [right_rotate] at h
  | node c v l r =>
    cases l with
    | nil => simp [right_rotate] at h
    | node lc lv ll lr =>
      simp only [right_rotate, Option.some.injEq] at h
      subst h; simp [size]; omega

theorem size_flip_color {t t' : Tree} (h : flip_color t = some t') :
    size t' = size t := by
  cases t with
  | nil => simp [flip_color] at h
  | node c v l r =>
    cases l with
    | nil => simp [flip_color] at h
    | node lc lv ll lr =>
      cases r with
      | nil => simp [flip_color] at h
      | node rc rv rl rr =>
        simp only [flip_color, Option.some.injEq] at h
        subst h; simp [size]

theorem size_with_right {t r2 : Tree} :
    size (with_right t r2) = size t - size (get_right t) + size r2 ∨ t = nil := by
  cases t with
  | nil => right; rfl
  | node c v l r => left; simp [with_right, get_right, size]; omega

theorem size_get_right_le {t : Tree} : size (get_right t) ≤ size t := by
  cases t with
  | nil => simp [get_right]
  | node c v l r => simp [get_right, size]; omega

theorem size_move_red_left {t t' : Tree} (h : move_red_left t = some t') :
    size t' = size t := by
  unfold move_red_left at h
  split at h
  · exact absurd h (by simp)
  · rename_i t1 h1
    have e1 := size_flip_color h1
    split at h
    · split at h
      · exact absurd h (by simp)
      · rename_i r2 h2
        have e2 := size_right_rotate h2
        split at h
        · exact absurd h (by simp)
        · rename_i t3 h3
          have e3 := size_left_rotate h3
          have e4 := size_flip_color h
          have e5 : size (with_right t1 r2) = size t1 := by
            rcases @size_with_right t1 r2 with h5 | h5
            · rw [h5, e2]
              have := @size_get_right_le t1
              omega
            · subst h5
              simp [with_right, size]
          omega
    · cases h; omega

theorem size_move_red_right {t t' : Tree} (h : move_red_right t = some t') :
    size t' = size t := by
  unfold move_red_right at h
  split at h
  · exact absurd h (by simp)
  · rename_i t1 h1
    have e1 := size_flip_color h1
    split at h
    · split at h
      · exact absurd h (by simp)
      · rename_i t2 h2
        have e2 := size_right_rotate h2
        have e3 := size_flip_color h
        omega
    · cases h; omega

theorem size_get_left_lt {t : Tree} (h : 1 ≤ size t) : size (get_left t) < size t := by
  cases t with
  | nil => simp [size] at h
  | node c v l r => simp [get_left, size]; omega

theorem size_get_right_lt {t : Tree} (h : 1 ≤ size t) : size (get_right t) < size t := by
  cases t with
  | nil => simp [size] at h
  | node c v l r => simp [get_right, size]; omega

/-- `TreeNode::node_delete`: recursive top-down delete.  Faithful points worth
noting against the source: `node_value` is read once at the top of the call and
*cached*, so the equality tests after the rotations still compare against the
pre-rotation value; `is_black(None)` is `true`, so the black/black tests
`is_black(x) && is_black(x.unwrap().left)` panic (`none`) when `x` is absent;
the equal-key case substitutes the minimum of the current right subtree and
recursively deletes that minimum from it. -/
def node_delete (t : Tree) (dv : Int) : Option Tree :=
  match t with
  | nil => some nil
  | node c nv l r =>
    if dv < nv then
      if is_black l then
        match l with
        | nil => none
        | node lc lv ll lr =>
          if is_black ll then
            match h1 : move_red_left (node c nv (node lc lv ll lr) r) with
            | none => none
            | some n1 =>
              match node_delete (get_left n1) dv with
              | none => none
              | some l2 => maintain (with_left n1 l2)
          else
            match node_delete (node lc lv ll lr) dv with
            | none => none
            | some l2 => maintain (node c nv l2 r)
      else
        match node_delete l dv with
        | none => none
        | some l2 => maintain (node c nv l2 r)
    else
      match h1 : (if is_red l then right_rotate (node c nv l r)
                  else some (node c nv l r)) with
      | none => none
      | some n1 =>
        if dv = nv ∧ get_right n1 = nil then some nil
        else
          match h2 : (if is_black (get_right n1) then
                        match get_right n1 with
                        | nil => none
                        | node _ _ rl _ =>
                          if is_black rl then move_red_right n1 else some n1
                      else some n1) with
          | none => none
          | some n2 =>
            if dv = nv then
              match h3 : get_right n2 with
              | nil => none
              | node rc2 rv2 rl2 rr2 =>
                match node_delete (node rc2 rv2 rl2 rr2)
                      (get_min_value_in_children (node rc2 rv2 rl2 rr2)) with
                | none => none
                | some r2 =>
                  maintain (with_value_right n2
                    (get_min_value_in_children (node rc2 rv2 rl2 rr2)) r2)
            else
              match node_delete (get_right n2) dv with
              | none => none
              | some r2 => maintain (with_right n2 r2)
termination_by size t
decreasing_by
  · have e1 := size_move_red_left h1
    simp only [size] at e1
    have h1le : 1 ≤ size n1 := by omega
    have h2lt := size_get_left_lt h1le
    simp only [size]
    omega
  · simp only [size]; omega
  · simp only [size]; omega
  · have en2 : size n2 = size n1 := by
      split at h2
      · split at h2
        · exact absurd h2 (by simp)
        · split at h2
          · exact size_move_red_right h2
          · cases h2; rfl
      · cases h2; rfl
    split at h1
    · have e1 := size_right_rotate h1
      simp only [size] at e1
      have hlt : size (get_right n2) < size n2 := by
        apply size_get_right_lt
        omega
      rw [h3] at hlt
      simp only [size] at hlt ⊢
      omega
    · cases h1
      simp only [size] at en2
      have hlt : size (get_right n2) < size n2 := by
        apply size_get_right_lt
        omega
      rw [h3] at hlt
      simp only [size] at hlt ⊢
      omega
  · have en2 : size n2 = size n1 := by
      split at h2
      · split at h2
        · exact absurd h2 (by simp)
        · split at h2
          · exact size_move_red_right h2
          · cases h2; rfl
      · cases h2; rfl
    split at h1
    · have e1 := size_right_rotate h1
      simp only [size] at e1
      have hlt : size (get_right n2) < size n2 := by
        apply size_get_right_lt
        omega
      simp only [size]
      omega
    · cases h1
      simp only [size] at en2
      have hlt : size (get_right n2) < size n2 := by
        apply size_get_right_lt
        omega
      simp only [size]
      omega

/-- `FastRBTree::delete`: on a non-empty tree, paint the root `Red` when both
its children read as black, run `node_delete`, then force a surviving root
back to `Black`. -/
def delete (t : Tree) (dv : Int) : Option Tree :=
  match t with
  | nil => some nil
  | node c v l r =>
    match node_delete (if is_black l && is_black r then node Red v l r
                       else node c v l r) dv with
    | none => none
    | some nil => some nil
    | some (node _ v2 l2 r2) => some (node Black v2 l2 r2)

/-- `CommonTreeNodeTrait::contains` together with `CommonTreeTrait::contains`
(the `nil` case is the tree-level `None => false` and the recursion's absent
child): equal value found, larger current value descends left, otherwise
right. -/
def contains : Tree → Int → Bool
  | nil, _ => false
  | node _ v l r, x =>
    if v = x then true
    else if v > x then contains l x
    else contains r x

/-- `CommonTreeNodeTrait::in_order_traversal_for_test` (the container the Rust
code pushes into, as a list; an absent root contributes nothing). -/
def in_order_traversal_for_test : Tree → List Int
  | nil => []
  | node _ v l r =>
    in_order_traversal_for_test l ++ v :: in_order_traversal_for_test r

/-- `CommonTreeNodeTrait::pre_order_traversal_for_test`. -/
def pre_order_traversal_for_test : Tree → List Int
  | nil => []
  | node _ v l r =>
    v :: (pre_order_traversal_for_test l ++ pre_order_traversal_for_test r)

/-- `TreeNode::get_height` (the override in `rbTreeFast.rs`): an absent child
contributes `1`; the `nil` case of this definition is exactly the
`None => 1` arm of the two child matches. -/
def get_height : Tree → Nat
  | nil => 1
  | node _ _ l r => Nat.max (get_height l) (get_height r) + 1

/-- `FastRBTree::height` (the override): `0` on an absent root, otherwise the
root node's `get_height`. -/
def height : Tree → Nat
  | nil => 0
  | node c v l r => get_height (node c v l r)

/-- `TreeNode::count_leaves` (the override in `rbTreeFast.rs`).  The Rust
method is only ever invoked on real nodes; the `nil` equation is an arbitrary
default no caller reaches (the tree-level wrapper handles the empty tree
separately). -/
def count_leaves : Tree → Nat
  | nil => 0
  | node _ _ nil nil => 2
  | node _ _ nil (node rc rv rl rr) => 1 + count_leaves (node rc rv rl rr)
  | node _ _ (node lc lv ll lr) nil => 1 + count_leaves (node lc lv ll lr)
  | node _ _ (node lc lv ll lr) (node rc rv rl rr) =>
    count_leaves (node rc rv rl rr) + count_leaves (node lc lv ll lr)

/-- `CommonTreeTrait::count_leaves`: `0` on an absent root. -/
def tree_count_leaves : Tree → Nat
  | nil => 0
  | node c v l r => count_leaves (node c v l r)

/-- `TreeNode::calculate_black_height`: `some` black-height when every path
has the same number of blacks (a `nil` counts `1`), `none` on any mismatch. -/
def calculate_black_height : Tree → Option Nat
  | nil => some 1
  | node c _ l r =>
    match calculate_black_height l, calculate_black_height r with
    | some lh, some rh =>
      if lh ≠ rh then none
      else
        match c with
        | Red => some lh
        | Black => some (lh + 1)
    | _, _ => none

/-- `FastRBTree::is_valid_red_black_tree`. -/
def is_valid_red_black_tree (t : Tree) : Bool :=
  match calculate_black_height t with
  | some _ => true
  | none => false

/-- `FastRBTree::new`: the empty tree. -/
def new : Tree := nil

/-- A public operation of the tree: `insert(k)` or `delete(k)`. -/
inductive Op where
  | ins (k : Int)
  | del (k : Int)
deriving DecidableEq, Repr

/-- Apply one public operation (`none` = the operation panics). -/
def apply_op (t : Tree) : Op → Option Tree
  | Op.ins k => insert t k
  | Op.del k => delete t k

/-- Run a sequence of public operations from `new()`; `none` as soon as one
panics. -/
def run_ops (ops : List Op) : Option Tree :=
  ops.foldlM apply_op new

/-- A tree is fixup-stable when no node matches any of the three `maintain`
cases: no red right child with black left child, no red left child with red
left-left grandchild, and never two red children.  `maintain` is the identity
on every node of such a tree. -/
def fixup_stable : Tree → Bool
  | nil => true
  | node _ _ l r =>
    !(is_red r && is_black l) && !(is_red l && is_red (get_left l)) &&
      !(is_red l && is_red r) && fixup_stable l && fixup_stable r

/-- Repaint the root black (what the tail of `FastRBTree::insert` does to the
subtree returned by `node_insert`). -/
def set_root_black : Tree → Tree
  | nil => nil
  | node _ v l r => node Black v l r

/-- Modelled from the spec, for the C7 height convention: "an absent child
counts as height 1 (not 0)", and a node is one taller than its taller child. -/
def spec_height : Tree → Nat
  | nil => 1
  | node _ _ l r => Nat.max (spec_height l) (spec_height r) + 1

/-- Modelled from the spec, for the C8 leaf convention: "counts absent
children as leaves", i.e. the number of `nil` positions hanging under the
subtree. -/
def spec_nil_leaves : Tree → Nat
  | nil => 1
  | node _ _ l r => spec_nil_leaves l + spec_nil_leaves r

theorem maintain_node_shape (c : NodeColor) (v : Int) (l r : Tree) :
    ∃ c2 v2 l2 r2, maintain (node c v l r) = some (node c2 v2 l2 r2) := by
  rcases l with _ | ⟨_ | _, lv, _ | ⟨_ | _, llv, lll, llr⟩, lr⟩ <;>
    rcases r with _ | ⟨_ | _, rv, rl, rr⟩ <;>
    exact ⟨_, _, _, _, rfl⟩

theorem node_insert_shape (t : Tree) (v : Int) :
    ∃ c2 v2 l2 r2, node_insert t v = some (node c2 v2 l2 r2) := by
  induction t with
  | nil => exact ⟨Red, v, nil, nil, rfl⟩
  | node c nv l r ihl ihr =>
    by_cases h1 : v < nv
    · rcases ihl with ⟨c2, v2, l2, r2, hl⟩
      simp only [node_insert, if_pos h1, hl]
      exact maintain_node_shape c nv (node c2 v2 l2 r2) r
    · by_cases h2 : v > nv
      · rcases ihr with ⟨c2, v2, l2, r2, hr⟩
        simp only [node_insert, if_neg h1, if_pos h2, hr]
        exact maintain_node_shape c nv l (node c2 v2 l2 r2)
      · simp only [node_insert, if_neg h1, if_neg h2]
        exact maintain_node_shape c v l r

theorem insert_isSome (t : Tree) (v : Int) : (insert t v).isSome = true := by
  obtain ⟨c2, v2, l2, r2, h⟩ := node_insert_shape t v
  simp [insert, h]

/-- C9: `insert` is total and panic-free: every unwrap it executes (the root
unwrap in `FastRBTree::insert`, and the ones inside `maintain`'s rotations and
`flip_color`) is applied to a `Some` value, so for every tree and key the
modelled `insert` returns `some` rather than the panic value `none`. -/
theorem c9_insert_total : ∀ (t : Tree) (v : Int), (insert t v).isSome = true :=
  fun t v => insert_isSome t v

/-- C6: inserting `0, 16, 16, 8, 24, 20, 22` (with the duplicate 16) into a
tree created by `new()` yields a tree whose pre-order traversal is exactly
`[20, 8, 0, 16, 24, 22]`. -/
theorem c6_preorder_scenario :
    (run_ops [Op.ins 0, Op.ins 16, Op.ins 16, Op.ins 8, Op.ins 24, Op.ins 20,
      Op.ins 22]).map pre_order_traversal_for_test
    = some [20, 8, 0, 16, 24, 22] := by decide

/-- C1 (refuting evaluation): `insert 5` into `new()` gives the valid
single-node tree `{5}`; `3` is not contained in it; yet `delete 3` hits the
unwrap of the absent left child inside `node_delete`'s black/black test and
panics (`none`) instead of returning as a no-op. -/
theorem c1_absent_delete_panics :
    insert new 5 = some (node Black 5 nil nil)
      ∧ contains (node Black 5 nil nil) 3 = false
      ∧ is_valid_red_black_tree (node Black 5 nil nil) = true
      ∧ delete (node Black 5 nil nil) 3 = none := by
  refine ⟨by decide, by decide, by decide, ?_⟩
  simp [delete, node_delete, is_red, is_black, get_color, get_left, get_right]

/-- C2 (refuting evaluation): the four completed operations
`insert 6; insert 18; insert 10; delete 10` leave the tree
`18B with left child 6B and no right child`, on which
`is_valid_red_black_tree` returns `false` (left black-height 2, right 1):
the broken `move_red_right` (its `flip_color` always pushes red up, never
down) lets the delete remove a black node without compensation. -/
theorem c2_delete_breaks_validity :
    run_ops [Op.ins 6, Op.ins 18, Op.ins 10, Op.del 10]
      = some (node Black 18 (node Black 6 nil nil) nil)
      ∧ is_valid_red_black_tree (node Black 18 (node Black 6 nil nil) nil)
        = false := by
  constructor
  · simp [run_ops, apply_op, new, insert, node_insert, maintain, is_red,
      is_black, get_color, get_left, get_right, left_rotate, right_rotate,
      flip_color, delete, node_delete, move_red_left, move_red_right,
      with_left, with_right, with_value_right, get_min_value_in_children]
  · decide

/-- C4 (refuting evaluation): after the completed operations
`insert 2; insert 1; delete 2` the tree is the single node `{2}`: the delete
compares against the value cached before its right-rotation, performs the
successor substitution at the wrong node, and thereby loses key `1` (inserted,
never deleted) while keeping the deleted key `2`; `contains 1` is `false`. -/
theorem c4_delete_loses_other_key :
    run_ops [Op.ins 2, Op.ins 1, Op.del 2] = some (node Black 2 nil nil)
      ∧ contains (node Black 2 nil nil) 1 = false
      ∧ contains (node Black 2 nil nil) 2 = true := by
  refine ⟨?_, by decide, by decide⟩
  simp [run_ops, apply_op, new, insert, node_insert, maintain, is_red,
    is_black, get_color, get_left, get_right, left_rotate, right_rotate,
    flip_color, delete, node_delete, move_red_left, move_red_right,
    with_left, with_right, with_value_right, get_min_value_in_children]

theorem get_height_eq_spec_height : ∀ t : Tree, get_height t = spec_height t := by
  intro t
  induction t with
  | nil => rfl
  | node c v l r ihl ihr => simp [get_height, spec_height, ihl, ihr]

/-- C7: `height()` follows the convention that an absent child counts as
height 1: every node's height is 1 plus the maximum of its children's heights
with an absent child contributing 1 (`spec_height`), and a tree whose root is
a single node with no children reports `height() = 2`. -/
theorem c7_height_convention :
    (∀ (c : NodeColor) (v : Int) (l r : Tree),
      get_height (node c v l r) = Nat.max (spec_height l) (spec_height r) + 1)
      ∧ (∀ (c : NodeColor) (v : Int), height (node c v nil nil) = 2) := by
  constructor
  · intro c v l r
    simp [get_height, get_height_eq_spec_height]
  · intro c v
    rfl

theorem count_leaves_eq_spec_nil_leaves :
    ∀ t : Tree, t ≠ nil → count_leaves t = spec_nil_leaves t := by
  intro t
  induction t with
  | nil => intro h; exact absurd rfl h
  | node c v l r ihl ihr =>
    intro _
    rcases l with _ | ⟨lc, lv, ll, lr⟩ <;> rcases r with _ | ⟨rc, rv, rl, rr⟩
    · simp [count_leaves, spec_nil_leaves]
    · have := ihr (by simp)
      simp [count_leaves, spec_nil_leaves] at this ⊢
      omega
    · have := ihl (by simp)
      simp [count_leaves, spec_nil_leaves] at this ⊢
      omega
    · have h1 := ihl (by simp)
      have h2 := ihr (by simp)
      simp [count_leaves, spec_nil_leaves] at h1 h2 ⊢
      omega

/-- C8: `count_leaves()` counts absent children as leaves: a node with no real
children reports 2, one with exactly one real child reports 1 plus that
child's count, one with two real children the sum of both counts (equally:
every node's count is the number of `nil` positions under it), and a
single-node tree reports `count_leaves() = 2`. -/
theorem c8_count_leaves_convention :
    (∀ (c : NodeColor) (v : Int), count_leaves (node c v nil nil) = 2)
      ∧ (∀ (c rc : NodeColor) (v rv : Int) (rl rr : Tree),
          count_leaves (node c v nil (node rc rv rl rr))
            = 1 + count_leaves (node rc rv rl rr))
      ∧ (∀ (c lc : NodeColor) (v lv : Int) (ll lr : Tree),
          count_leaves (node c v (node lc lv ll lr) nil)
            = 1 + count_leaves (node lc lv ll lr))
      ∧ (∀ (c lc rc : NodeColor) (v lv rv : Int) (ll lr rl rr : Tree),
          count_leaves (node c v (node lc lv ll lr) (node rc rv rl rr))
            = count_leaves (node lc lv ll lr) + count_leaves (node rc rv rl rr))
      ∧ (∀ (c : NodeColor) (v : Int) (l r : Tree),
          count_leaves (node c v l r) = spec_nil_leaves l + spec_nil_leaves r)
      ∧ (∀ (c : NodeColor) (v : Int), tree_count_leaves (node c v nil nil) = 2) := by
  refine ⟨fun c v => rfl, fun c rc v rv rl rr => rfl, fun c lc v lv ll lr => rfl,
    ?_, ?_, fun c v => rfl⟩
  · intro c lc rc v lv rv ll lr rl rr
    simp [count_leaves]
    omega
  · intro c v l r
    have := count_leaves_eq_spec_nil_leaves (node c v l r) (by simp)
    simpa [spec_nil_leaves] using this

/-- C10: on the empty tree produced by `new()`, `height()` returns 0 and
`count_leaves()` returns 0 (the absent-root cases of the tree-level wrappers,
outside the node-level conventions). -/
theorem c10_empty_metrics :
    run_ops [] = some new ∧ height new = 0 ∧ tree_count_leaves new = 0 :=
  ⟨rfl, rfl, rfl⟩

theorem maintain_inorder (c : NodeColor) (v : Int) (l r : Tree) :
    Option.map in_order_traversal_for_test (maintain (node c v l r))
      = some (in_order_traversal_for_test (node c v l r)) := by
  rcases l with _ | ⟨_ | _, lv, _ | ⟨_ | _, llv, lll, llr⟩, lr⟩ <;>
    rcases r with _ | ⟨_ | _, rv, rl, rr⟩ <;>
    simp [in_order_traversal_for_test, maintain, is_red, is_black, get_color,
      get_left, get_right, left_rotate, right_rotate, flip_color]

theorem maintain_inorder_of_eq {c : NodeColor} {v : Int} {l r t' : Tree}
    (h : maintain (node c v l r) = some t') :
    in_order_traversal_for_test t' = in_order_traversal_for_test (node c v l r) := by
  have hm := maintain_inorder c v l r
  rw [h] at hm
  simpa using hm

theorem node_insert_mem (t : Tree) (v : Int) :
    ∀ t', node_insert t v = some t' → ∀ x : Int,
      x ∈ in_order_traversal_for_test t'
        ↔ x = v ∨ x ∈ in_order_traversal_for_test t := by
  induction t with
  | nil =>
    intro t' h x
    simp only [node_insert, Option.some.injEq] at h
    subst h
    simp [in_order_traversal_for_test]
  | node c nv l r ihl ihr =>
    intro t' h x
    by_cases h1 : v < nv
    · simp only [node_insert, if_pos h1] at h
      split at h
      · exact absurd h (by simp)
      · rename_i l2 hl
        rw [maintain_inorder_of_eq h]
        simp only [in_order_traversal_for_test, List.mem_append, List.mem_cons]
        have hml := ihl l2 hl x
        tauto
    · by_cases h2 : v > nv
      · simp only [node_insert, if_neg h1, if_pos h2] at h
        split at h
        · exact absurd h (by simp)
        · rename_i r2 hr
          rw [maintain_inorder_of_eq h]
          simp only [in_order_traversal_for_test, List.mem_append, List.mem_cons]
          have hmr := ihr r2 hr x
          tauto
      · have hv : v = nv := by omega
        simp only [node_insert, if_neg h1, if_neg h2] at h
        rw [maintain_inorder_of_eq h]
        subst hv
        simp only [in_order_traversal_for_test, List.mem_append, List.mem_cons]
        tauto

theorem node_insert_sorted (t : Tree) (v : Int) :
    List.Pairwise (· < ·) (in_order_traversal_for_test t) →
    ∀ t', node_insert t v = some t' →
      List.Pairwise (· < ·) (in_order_traversal_for_test t') := by
  induction t with
  | nil =>
    intro _ t' h
    simp only [node_insert, Option.some.injEq] at h
    subst h
    simp [in_order_traversal_for_test]
  | node c nv l r ihl ihr =>
    intro hs t' h
    simp only [in_order_traversal_for_test] at hs
    have hsl : List.Pairwise (· < ·) (in_order_traversal_for_test l) :=
      (List.pairwise_append.mp hs).1
    have hs2 : List.Pairwise (· < ·) (nv :: in_order_traversal_for_test r) :=
      (List.pairwise_append.mp hs).2.1
    have hcross := (List.pairwise_append.mp hs).2.2
    have hnr : ∀ b ∈ in_order_traversal_for_test r, nv < b :=
      (List.pairwise_cons.mp hs2).1
    have hsr : List.Pairwise (· < ·) (in_order_traversal_for_test r) :=
      (List.pairwise_cons.mp hs2).2
    by_cases h1 : v < nv
    · simp only [node_insert, if_pos h1] at h
      split at h
      · exact absurd h (by simp)
      · rename_i l2 hl
        rw [maintain_inorder_of_eq h]
        simp only [in_order_traversal_for_test]
        refine List.pairwise_append.mpr ⟨ihl hsl l2 hl, hs2, ?_⟩
        intro a ha b hb
        rcases (node_insert_mem l v l2 hl a).mp ha with rfl | hal
        · rcases List.mem_cons.mp hb with rfl | hbr
          · exact h1
          · exact lt_trans h1 (hnr b hbr)
        · exact hcross a hal b hb
    · by_cases h2 : v > nv
      · simp only [node_insert, if_neg h1, if_pos h2] at h
        split at h
        · exact absurd h (by simp)
        · rename_i r2 hr
          rw [maintain_inorder_of_eq h]
          simp only [in_order_traversal_for_test]
          refine List.pairwise_append.mpr ⟨hsl, ?_, ?_⟩
          · refine List.pairwise_cons.mpr ⟨?_, ihr hsr r2 hr⟩
            intro b hb
            rcases (node_insert_mem r v r2 hr b).mp hb with rfl | hbr
            · exact h2
            · exact hnr b hbr
          · intro a ha b hb
            rcases List.mem_cons.mp hb with rfl | hbr
            · exact hcross a ha b (List.mem_cons_self b _)
            · rcases (node_insert_mem r v r2 hr b).mp hbr with rfl | hbr2
              · exact lt_trans (hcross a ha nv (List.mem_cons_self nv _)) h2
              · exact hcross a ha b (List.mem_cons_of_mem nv hbr2)
      · have hv : v = nv := by omega
        simp only [node_insert, if_neg h1, if_neg h2] at h
        rw [maintain_inorder_of_eq h]
        subst hv
        simp only [in_order_traversal_for_test]
        exact List.pairwise_append.mpr ⟨hsl, hs2, hcross⟩

theorem insert_mem (t : Tree) (v : Int) :
    ∀ t', insert t v = some t' → ∀ x : Int,
      x ∈ in_order_traversal_for_test t'
        ↔ x = v ∨ x ∈ in_order_traversal_for_test t := by
  intro t' h x
  unfold insert at h
  split at h
  · exact absurd h (by simp)
  · exact absurd h (by simp)
  · rename_i c2 v2 l2 r2 hni
    cases h
    have := node_insert_mem t v (node c2 v2 l2 r2) hni x
    simpa [in_order_traversal_for_test] using this

theorem insert_sorted (t : Tree) (v : Int)
    (hs : List.Pairwise (· < ·) (in_order_traversal_for_test t)) :
    ∀ t', insert t v = some t' →
      List.Pairwise (· < ·) (in_order_traversal_for_test t') := by
  intro t' h
  unfold insert at h
  split at h
  · exact absurd h (by simp)
  · exact absurd h (by simp)
  · rename_i c2 v2 l2 r2 hni
    cases h
    have := node_insert_sorted t v hs (node c2 v2 l2 r2) hni
    simpa [in_order_traversal_for_test] using this

theorem run_ins_aux (ks : List Int) :
    ∀ t0 t : Tree, List.Pairwise (· < ·) (in_order_traversal_for_test t0) →
      List.foldlM apply_op t0 (ks.map Op.ins) = some t →
      List.Pairwise (· < ·) (in_order_traversal_for_test t)
        ∧ ∀ x : Int, x ∈ in_order_traversal_for_test t
            ↔ x ∈ in_order_traversal_for_test t0 ∨ x ∈ ks := by
  induction ks with
  | nil =>
    intro t0 t hs h
    simp only [List.map_nil, List.foldlM_nil] at h
    cases h
    exact ⟨hs, fun x => by simp⟩
  | cons k ks ih =>
    intro t0 t hs h
    simp only [List.map_cons, List.foldlM_cons] at h
    cases h1 : insert t0 k with
    | none =>
      rw [show apply_op t0 (Op.ins k) = insert t0 k from rfl, h1] at h
      simp at h
    | some t1 =>
      rw [show apply_op t0 (Op.ins k) = insert t0 k from rfl, h1] at h
      have h2 : List.foldlM apply_op t1 (ks.map Op.ins) = some t := h
      obtain ⟨ih1, ih2⟩ := ih t1 t (insert_sorted t0 k hs t1 h1) h2
      refine ⟨ih1, fun x => ?_⟩
      rw [ih2 x]
      have hm := insert_mem t0 k t1 h1 x
      simp only [List.mem_cons]
      tauto

/-- C3: for every finite sequence of keys inserted into a tree created by
`new()` (all the inserts completing), the in-order traversal afterwards is
strictly ascending and its members are exactly the keys of the insert
sequence — i.e. it is the strictly ascending sequence of the distinct keys
inserted, duplicates collapsed. -/
theorem c3_ordering_round_trip (ks : List Int) (t : Tree)
    (h : run_ops (ks.map Op.ins) = some t) :
    List.Pairwise (· < ·) (in_order_traversal_for_test t)
      ∧ ∀ x : Int, x ∈ in_order_traversal_for_test t ↔ x ∈ ks := by
  have haux := run_ins_aux ks new t (by simp [new, in_order_traversal_for_test]) h
  refine ⟨haux.1, fun x => ?_⟩
  have h2 := haux.2 x
  simpa [new, in_order_traversal_for_test] using h2

/-- C3 witness: inserting `2, 1, 3, 2` yields in-order `[1, 2, 3]`, strictly
ascending with exactly the distinct inserted keys. -/
theorem c3_witness :
    List.Pairwise (· < ·) (in_order_traversal_for_test
      (node Black 2 (node Black 1 nil nil) (node Black 3 nil nil)))
      ∧ ∀ x : Int, x ∈ in_order_traversal_for_test
          (node Black 2 (node Black 1 nil nil) (node Black 3 nil nil))
          ↔ x ∈ [(2 : Int), 1, 3, 2] :=
  c3_ordering_round_trip [2, 1, 3, 2]
    (node Black 2 (node Black 1 nil nil) (node Black 3 nil nil)) (by decide)

theorem maintain_id (t : Tree)
    (h1 : (is_red (get_right t) && is_black (get_left t)) = false)
    (h2 : (is_red (get_left t) && is_red (get_left (get_left t))) = false)
    (h3 : (is_red (get_left t) && is_red (get_right t)) = false) :
    maintain t = some t := by
  unfold maintain
  rw [h1, h2, h3]
  simp

theorem fixup_stable_node {c : NodeColor} {v : Int} {l r : Tree}
    (h : fixup_stable (node c v l r) = true) :
    (is_red r && is_black l) = false
      ∧ (is_red l && is_red (get_left l)) = false
      ∧ (is_red l && is_red r) = false
      ∧ fixup_stable l = true ∧ fixup_stable r = true := by
  simp only [fixup_stable, Bool.and_eq_true, Bool.not_eq_true'] at h
  refine ⟨h.1.1.1.1, h.1.1.1.2, h.1.1.2, h.1.2, h.2⟩

theorem contains_left {c : NodeColor} {nv k : Int} {l r : Tree}
    (hc : contains (node c nv l r) k = true) (h1 : k < nv) :
    contains l k = true := by
  simp only [contains] at hc
  rw [if_neg (by omega), if_pos (by omega)] at hc
  exact hc

theorem contains_right {c : NodeColor} {nv k : Int} {l r : Tree}
    (hc : contains (node c nv l r) k = true) (h1 : nv < k) :
    contains r k = true := by
  simp only [contains] at hc
  rw [if_neg (by omega), if_neg (by omega)] at hc
  exact hc

theorem node_insert_stable_id (t : Tree) (k : Int) :
    fixup_stable t = true → contains t k = true → node_insert t k = some t := by
  induction t with
  | nil => intro _ hc; simp [contains] at hc
  | node c nv l r ihl ihr =>
    intro hst hc
    obtain ⟨g1, g2, g3, hstl, hstr⟩ := fixup_stable_node hst
    have hm : maintain (node c nv l r) = some (node c nv l r) :=
      maintain_id _ (by simpa [get_left, get_right] using g1)
        (by simpa [get_left, get_right] using g2)
        (by simpa [get_left, get_right] using g3)
    by_cases h1 : k < nv
    · simp only [node_insert, if_pos h1, ihl hstl (contains_left hc h1)]
      exact hm
    · by_cases h2 : k > nv
      · simp only [node_insert, if_neg h1, if_pos h2, ihr hstr (contains_right hc h2)]
        exact hm
      · have hv : k = nv := by omega
        simp only [node_insert, if_neg h1, if_neg h2]
        rw [hv]
        exact hm

theorem node_insert_contains_inorder (t : Tree) (k : Int) :
    contains t k = true → ∀ t', node_insert t k = some t' →
      in_order_traversal_for_test t' = in_order_traversal_for_test t := by
  induction t with
  | nil => intro hc; simp [contains] at hc
  | node c nv l r ihl ihr =>
    intro hc t' h
    by_cases h1 : k < nv
    · simp only [node_insert, if_pos h1] at h
      split at h
      · exact absurd h (by simp)
      · rename_i l2 hl
        rw [maintain_inorder_of_eq h]
        simp only [in_order_traversal_for_test,
          ihl (contains_left hc h1) l2 hl]
    · by_cases h2 : k > nv
      · simp only [node_insert, if_neg h1, if_pos h2] at h
        split at h
        · exact absurd h (by simp)
        · rename_i r2 hr
          rw [maintain_inorder_of_eq h]
          simp only [in_order_traversal_for_test,
            ihr (contains_right hc h2) r2 hr]
      · have hv : k = nv := by omega
        simp only [node_insert, if_neg h1, if_neg h2] at h
        rw [maintain_inorder_of_eq h, hv]

theorem size_eq_length_inorder (t : Tree) :
    size t = (in_order_traversal_for_test t).length := by
  induction t with
  | nil => rfl
  | node c v l r ihl ihr =>
    simp [size, in_order_traversal_for_test, ihl, ihr]
    omega

theorem set_root_black_traversals (t : Tree) :
    in_order_traversal_for_test (set_root_black t) = in_order_traversal_for_test t
      ∧ pre_order_traversal_for_test (set_root_black t)
        = pre_order_traversal_for_test t
      ∧ size (set_root_black t) = size t := by
  cases t <;>
    simp [set_root_black, in_order_traversal_for_test,
      pre_order_traversal_for_test, size]

/-- C5 (amended): for every tree and every key the search finds (`contains`
true), `insert(key)` overwrites in place and creates no second node — the
in-order key sequence and the node count are unchanged by every completing
insert — and on every fixup-stable tree (no node matches a `maintain` case;
all insert-only trees are such) the tree is left completely unchanged except
that the root is repainted black, so the shape is identical too. -/
theorem c5_present_insert_noop (t : Tree) (k : Int) (hc : contains t k = true) :
    (∀ t', insert t k = some t' →
      in_order_traversal_for_test t' = in_order_traversal_for_test t
        ∧ size t' = size t)
      ∧ (fixup_stable t = true →
          insert t k = some (set_root_black t)
            ∧ in_order_traversal_for_test (set_root_black t)
              = in_order_traversal_for_test t
            ∧ pre_order_traversal_for_test (set_root_black t)
              = pre_order_traversal_for_test t
            ∧ size (set_root_black t) = size t) := by
  constructor
  · intro t' h
    unfold insert at h
    split at h
    · exact absurd h (by simp)
    · exact absurd h (by simp)
    · rename_i c2 v2 l2 r2 hni
      cases h
      have he := node_insert_contains_inorder t k hc (node c2 v2 l2 r2) hni
      have he2 : in_order_traversal_for_test (node Black v2 l2 r2)
          = in_order_traversal_for_test t := by
        simpa [in_order_traversal_for_test] using he
      refine ⟨he2, ?_⟩
      rw [size_eq_length_inorder, size_eq_length_inorder, he2]
  · intro hst
    have hni := node_insert_stable_id t k hst hc
    cases t with
    | nil => simp [contains] at hc
    | node c v l r =>
      refine ⟨?_, (set_root_black_traversals (node c v l r)).1,
        (set_root_black_traversals (node c v l r)).2.1,
        (set_root_black_traversals (node c v l r)).2.2⟩
      simp only [insert, hni]
      rfl

/-- C5 witness: on the stable reachable tree `2B(1R, nil)` with present key
`1`, insert is a complete no-op up to the (already black) root repaint. -/
theorem c5_witness :
    (∀ t', insert (node Black 2 (node Red 1 nil nil) nil) 1 = some t' →
      in_order_traversal_for_test t'
          = in_order_traversal_for_test (node Black 2 (node Red 1 nil nil) nil)
        ∧ size t' = size (node Black 2 (node Red 1 nil nil) nil))
      ∧ (fixup_stable (node Black 2 (node Red 1 nil nil) nil) = true →
          insert (node Black 2 (node Red 1 nil nil) nil) 1
              = some (set_root_black (node Black 2 (node Red 1 nil nil) nil))
            ∧ in_order_traversal_for_test
                (set_root_black (node Black 2 (node Red 1 nil nil) nil))
              = in_order_traversal_for_test
                (node Black 2 (node Red 1 nil nil) nil)
            ∧ pre_order_traversal_for_test
                (set_root_black (node Black 2 (node Red 1 nil nil) nil))
              = pre_order_traversal_for_test
                (node Black 2 (node Red 1 nil nil) nil)
            ∧ size (set_root_black (node Black 2 (node Red 1 nil nil) nil))
              = size (node Black 2 (node Red 1 nil nil) nil)) :=
  c5_present_insert_noop (node Black 2 (node Red 1 nil nil) nil) 1 (by decide)

/-- C5 counterexample: a reachable tree (every operation completes) on which
re-inserting the present key `7` right-rotates the tree — the pre-order
changes from `[19, 11, 7, 12, 13, 23, 22, 24]` to
`[12, 11, 7, 19, 13, 23, 22, 24]` — because the buggy delete left a red right
child (node 12) under a red node, so `maintain` fires during the re-insert
descent. -/
theorem c5_reinsert_restructures :
    run_ops [Op.ins 23, Op.ins 12, Op.ins 9, Op.ins 24, Op.ins 19, Op.ins 0,
        Op.del 0, Op.ins 11, Op.ins 6, Op.del 6, Op.ins 13, Op.ins 22,
        Op.ins 7, Op.del 9]
      = some (node Black 19
          (node Red 11 (node Black 7 nil nil)
            (node Red 12 nil (node Black 13 nil nil)))
          (node Black 23 (node Black 22 nil nil) (node Black 24 nil nil)))
      ∧ contains (node Black 19
          (node Red 11 (node Black 7 nil nil)
            (node Red 12 nil (node Black 13 nil nil)))
          (node Black 23 (node Black 22 nil nil) (node Black 24 nil nil)))
          7 = true
      ∧ (insert (node Black 19
          (node Red 11 (node Black 7 nil nil)
            (node Red 12 nil (node Black 13 nil nil)))
          (node Black 23 (node Black 22 nil nil) (node Black 24 nil nil)))
          7).map pre_order_traversal_for_test
        = some [12, 11, 7, 19, 13, 23, 22, 24]
      ∧ pre_order_traversal_for_test (node Black 19
          (node Red 11 (node Black 7 nil nil)
            (node Red 12 nil (node Black 13 nil nil)))
          (node Black 23 (node Black 22 nil nil) (node Black 24 nil nil)))
        = [19, 11, 7, 12, 13, 23, 22, 24] := by
  refine ⟨?_, by decide, by decide, by decide⟩
  simp [run_ops, apply_op, new, insert, node_insert, maintain, is_red,
    is_black, get_color, get_left, get_right, left_rotate, right_rotate,
    flip_color, delete, node_delete, move_red_left, move_red_right,
    with_left, with_right, with_value_right, get_min_value_in_children]
